import Mathlib

set_option maxHeartbeats 1000000

/-!
Verification development for the endpoint-validator tool
(`endpoint_validator.py`): a shallow embedding of its configuration,
regex-based endpoint extractor, path validator and CLI driver, together
with theorems settling the specification claims.

Strings are modelled at the character-list level (`String.data`), which
matches Python's view of `str` as a sequence of characters.
-/

/-- Character constants for the single-quote and backtick quote characters
used by the extraction regexes. -/
def squoteC : Char := Char.ofNat 39

def btickC : Char := Char.ofNat 96

/-- Embedding of Python `s.startswith(t)`: the characters of `t` are a list
prefix of the characters of `s`. -/
def startsWithStr (s t : String) : Bool := t.data.isPrefixOf s.data

/-- Embedding of Python `s.rstrip(slash)` as used in `validate_endpoint`
(line 132/135): remove ALL trailing slash characters. -/
def rstripSlash (s : String) : String :=
  ⟨(s.data.reverse.dropWhile (fun c => c == '/')).reverse⟩

/-- Embedding of Python `s.split(qmark)[0]`: the part of `s` before its first
question mark (all of `s` when there is none). -/
def cutQuery (s : String) : String := ⟨s.data.takeWhile (fun c => c != '?')⟩

/-- Embedding of Python `s.split(hash)[0]`: the part of `s` before its first
hash character. -/
def cutHash (s : String) : String := ⟨s.data.takeWhile (fun c => c != '#')⟩

/-- Endpoint clean-up on line 121 of the source:
`endpoint.split(qmark)[0].split(hash)[0]`. -/
def normalizeEndpoint (s : String) : String := cutHash (cutQuery s)

/-- The compiled-in allow-list `ALLOWED_PARENT_PATHS` (lines 14-19). -/
def ALLOWED_PARENT_PATHS : List String := [("/api/v1"), ("/api/v2"), ("/api/v3")]

/-- The compiled-in extension list `FILE_EXTENSIONS` (line 22). -/
def FILE_EXTENSIONS : List String :=
  [(".go"), (".js"), (".ts"), (".py"), (".java"), (".rb")]

/-- Embedding of `validate_endpoint` (lines 129-138), generalized over the
allow-list argument: strip all trailing slashes from the endpoint, then for
each entry strip all of its trailing slashes and accept when the endpoint
starts with the entry plus a slash or equals the entry. -/
def validate_endpoint_with (allowed : List String) (endpoint : String) : Bool :=
  let e := rstripSlash endpoint
  allowed.any fun parent_path =>
    let p := rstripSlash parent_path
    startsWithStr e (p ++ ("/")) || e == p

/-- The source's `validate_endpoint`, reading the global allow-list. -/
def validate_endpoint (endpoint : String) : Bool :=
  validate_endpoint_with ALLOWED_PARENT_PATHS endpoint

/-- Modelled from the spec (claim C3 wording): strip exactly ONE trailing
slash when present.  This is the spec's description, to be compared with the
source's `rstripSlash`. -/
def stripOneTrailingSlash (s : String) : String :=
  match s.data.reverse with
  | c :: r => if c == '/' then ⟨r.reverse⟩ else s
  | [] => s

/-- Modelled from the spec (claim C3 wording): the validator comparison
performed on the strip-one-slash forms of endpoint and entries. -/
def validate_endpoint_strip_one (allowed : List String) (endpoint : String) : Bool :=
  let e := stripOneTrailingSlash endpoint
  allowed.any fun parent_path =>
    let p := stripOneTrailingSlash parent_path
    startsWithStr e (p ++ ("/")) || e == p

/-- Modelled from the spec (claim C2 wording): the first capture group, in
group order, whose text starts with a slash. -/
def firstSlashGroup (m : List String) : Option String :=
  m.find? fun g => startsWithStr g ("/")

/- ### regex engine

The extraction regexes of `ENDPOINT_PATTERNS` (lines 25-65) use a small
fragment of Python regex syntax: case-insensitive literals, single-character
classes, `\s*`, `\s+`, `.*`, alternations of literal words (capturing and
non-capturing), and capturing negated-class repetitions `([^..]+)`.  The
engine below implements exactly this fragment with Python's backtracking
preference order (leftmost alternative first, greedy repetition), so the
head of the candidate list is the match Python's `re` module produces. -/

/-- One element of an extraction regex. -/
inductive RElem where
  /-- A literal run of characters (matched case-insensitively under
  `re.IGNORECASE`). -/
  | lit (w : String)
  /-- A character class: one character among `cs`. -/
  | cls (cs : List Char)
  /-- A negated character class: one character not among `cs`. -/
  | ncls (cs : List Char)
  /-- The regex `\s*`. -/
  | wsStar
  /-- The regex `\s+`. -/
  | wsPlus
  /-- The regex `.*` (greedy, not matching a newline). -/
  | dotStar
  /-- A non-capturing alternation of literal words `(?:w1|w2|...)`. -/
  | words (ws : List String)
  /-- A capturing alternation of literal words `(w1|w2|...)`. -/
  | gwords (ws : List String)
  /-- A capturing repetition `([^cs]+)`. -/
  | gncls (cs : List Char)
deriving DecidableEq, Repr

/-- Case-insensitive character comparison, as under `re.IGNORECASE`. -/
def lowerEq (a b : Char) : Bool := a.toLower == b.toLower

/-- Match a literal word case-insensitively against the front of `s`,
returning the remainder on success. -/
def stripLitCI : List Char → List Char → Option (List Char)
  | [], s => some s
  | _ :: _, [] => none
  | p :: ps, c :: s => if lowerEq p c then stripLitCI ps s else none

/-- Python `\s` (the ASCII whitespace characters relevant to source text). -/
def isWsChar (c : Char) : Bool :=
  c == ' ' || c == '\t' || c == '\n' || c == '\r' ||
    c == Char.ofNat 11 || c == Char.ofNat 12

/-- Remainders after a greedy `p*`, longest consumption first. -/
def starRemainders (p : Char → Bool) (s : List Char) : List (List Char) :=
  let n := (s.takeWhile p).length
  (List.range (n + 1)).map fun j => s.drop (n - j)

/-- Consumed/remainder splits of a greedy `p+`, longest consumption first. -/
def plusSplits (p : Char → Bool) (s : List Char) : List (List Char × List Char) :=
  let n := (s.takeWhile p).length
  (List.range n).map fun j => (s.take (n - j), s.drop (n - j))

/-- All ways one regex element can consume a prefix of `s`, in backtracking
preference order; each way yields its captured groups and the remainder. -/
def matchElem : RElem → List Char → List (List String × List Char)
  | .lit w, s =>
    match stripLitCI w.data s with
    | some r => [([], r)]
    | none => []
  | .cls cs, s =>
    match s with
    | [] => []
    | c :: r => if cs.any (fun d => lowerEq d c) then [([], r)] else []
  | .ncls cs, s =>
    match s with
    | [] => []
    | c :: r => if cs.any (fun d => lowerEq d c) then [] else [([], r)]
  | .wsStar, s => (starRemainders isWsChar s).map fun r => ([], r)
  | .wsPlus, s => (plusSplits isWsChar s).map fun pr => ([], pr.2)
  | .dotStar, s => (starRemainders (fun c => c != '\n') s).map fun r => ([], r)
  | .words ws, s => ws.filterMap fun w => (stripLitCI w.data s).map fun r => ([], r)
  | .gwords ws, s =>
    ws.filterMap fun w =>
      (stripLitCI w.data s).map fun r => ([(⟨s.take w.data.length⟩ : String)], r)
  | .gncls cs, s =>
    (plusSplits (fun c => !cs.any (fun d => lowerEq d c)) s).map fun pr =>
      ([(⟨pr.1⟩ : String)], pr.2)

/-- All ways a regex (sequence of elements) matches a prefix of `s`, in
backtracking preference order; the head is Python's preferred match. -/
def matchSeq : List RElem → List Char → List (List String × List Char)
  | [], s => [([], s)]
  | e :: es, s =>
    (matchElem e s).flatMap fun cr =>
      (matchSeq es cr.2).map fun cr2 => (cr.1 ++ cr2.1, cr2.2)

/-- Scan of `re.findall`: attempt an anchored match at each position from the
left; on success record the groups and resume after the consumed text (after
one character for an empty match), otherwise advance one character.  The fuel
starts at `length + 1`, enough for every step to consume at least one
character. -/
def findallAux (p : List RElem) : Nat → List Char → List (List String)
  | 0, _ => []
  | fuel + 1, s =>
    match (matchSeq p s).head? with
    | some cr =>
      if cr.2.length < s.length then cr.1 :: findallAux p fuel cr.2
      else
        match s with
        | [] => [cr.1]
        | _ :: t => cr.1 :: findallAux p fuel t
    | none =>
      match s with
      | [] => []
      | _ :: t => findallAux p fuel t

/-- Embedding of `re.findall(pattern, content, re.MULTILINE | re.IGNORECASE)`
(line 109): the list of group tuples of all non-overlapping matches. -/
def findall (p : List RElem) (content : String) : List (List String) :=
  findallAux p (content.data.length + 1) content.data

/-- Number of capture groups contributed by one regex element. -/
def elemGroups : RElem → Nat
  | .gwords _ => 1
  | .gncls _ => 1
  | _ => 0

/-- Number of capture groups of a whole regex; this decides whether Python's
`re.findall` yields strings or tuples for it. -/
def seqGroups (es : List RElem) : Nat := (es.map elemGroups).sum

/-- Method-token alternations: every word is nonempty and, case-folded, does
not begin with a slash (true of all HTTP-method alternations in the table). -/
def goodMethodWords (ws : List String) : Bool :=
  ws.all fun w => !w.data.isEmpty && ((w.data.headD ' ').toLower != '/')

/-- Whether the FIRST capturing element of a regex is a word alternation of
method-like tokens, so that its capture can never begin with a slash.  This
holds for every multi-group rule of the pattern table. -/
def firstCapMethod : List RElem → Bool
  | [] => true
  | .gwords ws :: _ => goodMethodWords ws
  | .gncls _ :: _ => false
  | _ :: es => firstCapMethod es

/- ### the pattern table -/

/-- Quote class of the Go patterns. -/
def goQuote : List Char := ['"', btickC]

/-- Quote class of the JS/TS/Python/Java/Ruby patterns. -/
def anyQuote : List Char := [squoteC, '"', btickC]

/-- Upper-case HTTP method alternation `(GET|POST|PUT|DELETE|PATCH)`. -/
def methodsUpper : List String :=
  [("GET"), ("POST"), ("PUT"), ("DELETE"), ("PATCH")]

/-- Lower-case HTTP method alternation `(get|post|put|delete|patch)`. -/
def methodsLower : List String :=
  [("get"), ("post"), ("put"), ("delete"), ("patch")]

/-- Capitalized HTTP method alternation `(Get|Post|Put|Delete|Patch)`. -/
def methodsCap : List String :=
  [("Get"), ("Post"), ("Put"), ("Delete"), ("Patch")]

/-- The Go patterns (lines 26-35). -/
def goPatterns : List (List RElem) :=
  [ [.lit (".HandleFunc"), .wsStar, .lit ("("), .wsStar, .cls goQuote,
      .gncls goQuote, .cls goQuote],
    [.lit ("."), .gwords methodsUpper, .wsStar, .lit ("("), .wsStar,
      .cls goQuote, .gncls goQuote, .cls goQuote],
    [.lit ("e."), .gwords methodsUpper, .wsStar, .lit ("("), .wsStar,
      .cls goQuote, .gncls goQuote, .cls goQuote],
    [.lit ("http.HandleFunc"), .wsStar, .lit ("("), .wsStar, .cls goQuote,
      .gncls goQuote, .cls goQuote] ]

/-- The JS patterns (lines 36-41). -/
def jsPatterns : List (List RElem) :=
  [ [.words [("app"), ("router")], .lit ("."), .gwords methodsLower, .wsStar,
      .lit ("("), .wsStar, .cls anyQuote, .gncls anyQuote, .cls anyQuote],
    [.lit ("fastify."), .gwords methodsLower, .wsStar, .lit ("("), .wsStar,
      .cls anyQuote, .gncls anyQuote, .cls anyQuote] ]

/-- The TS patterns (lines 42-47). -/
def tsPatterns : List (List RElem) :=
  [ [.words [("app"), ("router")], .lit ("."), .gwords methodsLower, .wsStar,
      .lit ("("), .wsStar, .cls anyQuote, .gncls anyQuote, .cls anyQuote],
    [.lit ("@"), .gwords methodsCap, .wsStar, .lit ("("), .wsStar,
      .cls anyQuote, .gncls anyQuote, .cls anyQuote] ]

/-- The Python patterns (lines 48-55): Flask, FastAPI, Django. -/
def pyPatterns : List (List RElem) :=
  [ [.lit ("@app.route"), .wsStar, .lit ("("), .wsStar, .cls anyQuote,
      .gncls anyQuote, .cls anyQuote],
    [.lit ("@"), .words [("app"), ("router")], .lit ("."), .gwords methodsLower,
      .wsStar, .lit ("("), .wsStar, .cls anyQuote, .gncls anyQuote, .cls anyQuote],
    [.lit ("path"), .wsStar, .lit ("("), .wsStar, .cls anyQuote,
      .gncls anyQuote, .cls anyQuote] ]

/-- The Java patterns (lines 56-60). -/
def javaPatterns : List (List RElem) :=
  [ [.lit ("@"), .words methodsCap, .lit ("Mapping"), .wsStar, .lit ("("),
      .wsStar, .cls anyQuote, .gncls anyQuote, .cls anyQuote],
    [.lit ("@RequestMapping"), .wsStar, .lit ("("), .dotStar, .lit ("path"),
      .wsStar, .lit ("="), .wsStar, .cls anyQuote, .gncls anyQuote, .cls anyQuote] ]

/-- The Ruby patterns (lines 61-64). -/
def rbPatterns : List (List RElem) :=
  [ [.words methodsLower, .wsPlus, .cls anyQuote, .gncls anyQuote, .cls anyQuote] ]

/-- Embedding of `ENDPOINT_PATTERNS` (lines 25-65). -/
def ENDPOINT_PATTERNS : List (String × List (List RElem)) :=
  [ (("go"), goPatterns), (("js"), jsPatterns), (("ts"), tsPatterns),
    (("py"), pyPatterns), (("java"), javaPatterns), (("rb"), rbPatterns) ]

/- ### the extractor -/

/-- Embedding of line 114/116: the raw endpoint candidate chosen from a
match.  For a tuple match (a regex with at least two groups) this is
`match[1] if len(match) > 1 and match[1].startswith(slash) else match[0]`;
for a single-group regex the match is the group itself. -/
def selectCandidate (ngroups : Nat) (m : List String) : String :=
  if 2 ≤ ngroups then
    if decide (1 < m.length) && startsWithStr (m.getD 1 ("")) ("/") then m.getD 1 ("")
    else m.getD 0 ("")
  else m.getD 0 ("")

/-- Embedding of lines 112-122 for one match: select the candidate, keep it
only when non-empty and starting with a slash, and normalize it. -/
def process_match (ngroups : Nat) (m : List String) : Option String :=
  if selectCandidate ngroups m != ("") &&
      startsWithStr (selectCandidate ngroups m) ("/") then
    some (normalizeEndpoint (selectCandidate ngroups m))
  else none

/-- Embedding of `Path(filepath).name`: the part after the last slash. -/
def baseName (s : String) : String :=
  ⟨(s.data.reverse.takeWhile (fun c => c != '/')).reverse⟩

/-- Embedding of `Path(filepath).suffix[1:]` (line 105): the extension after
the last dot of the final path component, empty when the component has no
dot or only a leading dot. -/
def fileSuffixTag (s : String) : String :=
  let b := (baseName s).data
  let ext := b.reverse.takeWhile (fun c => c != '.')
  if ext.length == b.length then ("")
  else if ext.length + 1 == b.length then ("")
  else ⟨ext.reverse⟩

/-- The rule list looked up for a file path (line 106): `ENDPOINT_PATTERNS
.get(file_ext, [])`. -/
def patternsFor (filepath : String) : List (List RElem) :=
  (ENDPOINT_PATTERNS.lookup (fileSuffixTag filepath)).getD []

/-- Embedding of `extract_endpoints_from_file` (lines 96-127).  The file
system is modelled by an association list from path to content; a missing
entry models the caught read error, which contributes no endpoints. -/
def extract_endpoints_from_file (contents : List (String × String))
    (filepath : String) : List String :=
  match contents.lookup filepath with
  | none => []
  | some content =>
    (patternsFor filepath).flatMap fun p =>
      (findall p content).filterMap fun m => process_match (seqGroups p) m

/- ### the CLI driver `main` (lines 140-214)

The external world of one run is modelled by `Env`: the list returned by
`get_changed_files()` (a git query, already filtered to existing files with
recognized extensions), the list resolved by the `--all-files` glob, and the
readable file contents.  `main`'s observable behaviour is its rendered
output plus its exit status. -/

/-- The three CLI flags (lines 142-147). -/
structure Args where
  changed_only : Bool
  output_json : Bool
  all_files : Bool
deriving DecidableEq

/-- The environment of one run. -/
structure Env where
  changedFiles : List String
  allFiles : List String
  contents : List (String × String)
deriving DecidableEq

/-- The rendered output of one run.  `noFilesJson` is the document
`{success: true, message: ...}` printed on line 156, `noFilesText` the plain
message of line 155; `jsonReport` carries the fields of the dict built on
lines 185-191, `textReport` the data shown by the text report. -/
inductive ProgOutput where
  | noFilesText
  | noFilesJson
  | textReport (files_checked total_endpoints : Nat)
      (violations : List (String × String)) (allowed : List String)
  | jsonReport (success : Bool) (files_checked total_endpoints : Nat)
      (violations : List (String × String)) (allowed : List String)
deriving DecidableEq

/-- The keys of the JSON document a given output prints (in insertion
order); text outputs have no JSON document. -/
def outKeys : ProgOutput → List String
  | .noFilesJson => [("success"), ("message")]
  | .jsonReport _ _ _ _ _ =>
    [("success"), ("files_checked"), ("total_endpoints"), ("violations"),
      ("allowed_paths")]
  | _ => []

/-- The success flag reported in a JSON output, when there is one. -/
def successFlag : ProgOutput → Option Bool
  | .noFilesJson => some true
  | .jsonReport s _ _ _ _ => some s
  | _ => none

/-- The file-selection logic of lines 152-165 (ignoring the early exit):
`--changed-only` and the default both use the changed files, `--all-files`
the glob result. -/
def resolveFiles (args : Args) (env : Env) : List String :=
  if args.changed_only then env.changedFiles
  else if args.all_files then env.allFiles
  else env.changedFiles

/-- The extraction loop of lines 171-178: one `(file, endpoint)` record per
extracted endpoint, in file order. -/
def scanEndpoints (contents : List (String × String)) (files : List String) :
    List (String × String) :=
  files.flatMap fun filepath =>
    (extract_endpoints_from_file contents filepath).map fun e => (filepath, e)

/-- The violation subset built on lines 180-181. -/
def scanViolations (contents : List (String × String)) (files : List String) :
    List (String × String) :=
  (scanEndpoints contents files).filter fun pe => !(validate_endpoint pe.2)

/-- Embedding of `main` (lines 140-214): resolve the file list (with the
early `--changed-only` exit of lines 154-157), extract and validate, render
the report, and exit 1 exactly when a violation exists (line 214). -/
def runMain (args : Args) (env : Env) : ProgOutput × Nat :=
  if args.changed_only && env.changedFiles.isEmpty then
    ((if args.output_json then ProgOutput.noFilesJson else ProgOutput.noFilesText), 0)
  else
    let files := resolveFiles args env
    let all_endpoints := scanEndpoints env.contents files
    let violations := scanViolations env.contents files
    let out :=
      if args.output_json then
        ProgOutput.jsonReport (violations.length == 0) files.length
          all_endpoints.length violations ALLOWED_PARENT_PATHS
      else
        ProgOutput.textReport files.length all_endpoints.length violations
          ALLOWED_PARENT_PATHS
    (out, if violations.isEmpty then 0 else 1)

/-- All endpoint records a run extracts (none on the early exit). -/
def runAllEndpoints (args : Args) (env : Env) : List (String × String) :=
  if args.changed_only && env.changedFiles.isEmpty then []
  else scanEndpoints env.contents (resolveFiles args env)

/-- All violations a run finds (none on the early exit). -/
def runViolations (args : Args) (env : Env) : List (String × String) :=
  (runAllEndpoints args env).filter fun pe => !(validate_endpoint pe.2)

/- ### concrete inputs used by the scenario claims -/

/-- A single-quote character as a one-character string. -/
def sqS : String := ⟨[squoteC]⟩

/-- The file content of end-to-end scenario A: exactly the two Flask route
declarations. -/
def contentA : String :=
  ("@app.route(") ++ sqS ++ ("/api/v1/users") ++ sqS ++ (")\n@app.route(") ++
    sqS ++ ("/api/v4/health/status") ++ sqS ++ (")")

/-- The environment of scenario A: one changed Python file with `contentA`. -/
def envA : Env := ⟨[("app.py")], [], [(("app.py"), contentA)]⟩

/-- A Python file declaring the same path twice through two different rules
(FastAPI and Django). -/
def contentDup : String :=
  ("@app.get(") ++ sqS ++ ("/p") ++ sqS ++ (")\npath(") ++ sqS ++ ("/p") ++ sqS ++ (")")

/-- An environment with an empty change set. -/
def envEmpty : Env := ⟨[], [], []⟩

/- ### helper lemmas -/

theorem data_append_eq (s t : String) : (s ++ t).data = s.data ++ t.data := rfl

theorem rstripSlash_append_double (s : String) :
    rstripSlash (s ++ ("//")) = rstripSlash s := by
  cases s with
  | mk l =>
    unfold rstripSlash
    simp [data_append_eq, List.reverse_append, List.dropWhile]

/-- The characters of `rstripSlash s` form a prefix of those of `s`. -/
theorem rstripSlash_data_isPre (s : String) : (rstripSlash s).data <+: s.data := by
  cases s with
  | mk l =>
    unfold rstripSlash
    have h := List.dropWhile_suffix (l := l.reverse) (fun c => c == '/')
    have h2 := List.reverse_prefix.mpr h
    simpa using h2

/- ### claim theorems on the validator -/

/-- C1: for every allow-list and endpoint, `validate_endpoint` accepts iff
some entry `P` satisfies: the endpoint with trailing slashes stripped equals
`P` with trailing slashes stripped, or starts with the stripped `P` followed
by a slash; with the boundary cases for allow-list `[/api/v1]`: the endpoint
`/api/v10/users` is invalid while `/api/v1` and `/api/v1/` are valid. -/
theorem validate_endpoint_allow_iff :
    (∀ (allowed : List String) (E : String),
      validate_endpoint_with allowed E = true ↔
        ∃ P ∈ allowed, rstripSlash E = rstripSlash P ∨
          ((rstripSlash P) ++ ("/")).data <+: (rstripSlash E).data) ∧
    validate_endpoint_with [("/api/v1")] ("/api/v10/users") = false ∧
    validate_endpoint_with [("/api/v1")] ("/api/v1") = true ∧
    validate_endpoint_with [("/api/v1")] ("/api/v1/") = true := by
  refine ⟨?_, by decide, by decide, by decide⟩
  intro allowed E
  unfold validate_endpoint_with
  simp only [List.any_eq_true, Bool.or_eq_true, beq_iff_eq, startsWithStr,
    List.isPrefixOf_iff_prefix]
  constructor
  · rintro ⟨P, hP, h | h⟩
    · exact ⟨P, hP, Or.inr h⟩
    · exact ⟨P, hP, Or.inl h⟩
  · rintro ⟨P, hP, h | h⟩
    · exact ⟨P, hP, Or.inr h⟩
    · exact ⟨P, hP, Or.inl h⟩

/-- C3 counterexample: the claim says the comparison operates on forms with
exactly ONE trailing slash stripped, for every endpoint and allow-list.  On
allow-list `[/api//]` and endpoint `/api` the source accepts (it strips both
trailing slashes of the entry) while the strip-one comparison rejects. -/
theorem validate_strip_one_counterexample :
    validate_endpoint_with [("/api//")] ("/api") = true ∧
    validate_endpoint_strip_one [("/api//")] ("/api") = false := by
  exact ⟨by decide, by decide⟩

/-- C3 amended: `validate_endpoint` strips ALL trailing slashes (Python
`rstrip`) from the endpoint and, independently at comparison time, from each
allow-list entry: appending further trailing slashes to the endpoint or to
every entry never changes the outcome. -/
theorem validate_strips_all_trailing_slashes :
    ∀ (allowed : List String) (e : String),
      validate_endpoint_with allowed (e ++ ("//")) = validate_endpoint_with allowed e ∧
      validate_endpoint_with (allowed.map fun p => p ++ ("//")) e =
        validate_endpoint_with allowed e := by
  intro allowed e
  constructor
  · unfold validate_endpoint_with
    rw [rstripSlash_append_double]
  · unfold validate_endpoint_with
    rw [List.any_map]
    refine congrArg allowed.any (funext fun p => ?_)
    simp [Function.comp, rstripSlash_append_double]

/-- C10: when some allow-list entry strips to the empty string (the root
entry `/`, or any run of slashes), every endpoint that starts with a slash
validates. -/
theorem root_allow_entry_accepts_all :
    ∀ (allowed : List String) (P E : String), P ∈ allowed →
      rstripSlash P = ("") → startsWithStr E ("/") = true →
      validate_endpoint_with allowed E = true := by
  intro allowed P E hmem hstrip hslash
  unfold validate_endpoint_with
  refine List.any_eq_true.mpr ⟨P, hmem, ?_⟩
  rw [hstrip]
  have hpre : (rstripSlash E).data <+: E.data := rstripSlash_data_isPre E
  have hE : ['/'].isPrefixOf E.data = true := hslash
  rw [ List.isPrefixOf_iff_prefix] at hE
  obtain ⟨t, ht⟩ := hE
  cases hcase : (rstripSlash E).data with
  | nil =>
    have hempty : rstripSlash E = ("") := by
      cases hEq : rstripSlash E with
      | mk l =>
        rw [hEq] at hcase
        simp only [String.data] at hcase
        rw [hcase]
    rw [hempty]
    decide
  | cons c cs =>
    obtain ⟨u, hu⟩ := hpre
    rw [hcase] at hu
    rw [← ht] at hu
    have hc : c = '/' := by
      have h3 := congrArg List.head? hu
      simpa using h3
    rw [Bool.or_eq_true]
    left
    show ((("") : String) ++ ("/")).data.isPrefixOf (rstripSlash E).data = true
    rw [ List.isPrefixOf_iff_prefix, hcase, hc]
    refine ⟨cs, ?_⟩
    rfl

/-- C10 witness: the allow-list `[/]` accepts the endpoint `/anything/here`. -/
theorem root_allow_entry_accepts_all_witness :
    validate_endpoint_with [("/")] ("/anything/here") = true :=
  root_allow_entry_accepts_all [("/")] ("/") ("/anything/here")
    (by decide) (by decide) (by decide)

theorem takeWhile_comm_bool (p q : Char → Bool) (l : List Char) :
    (l.takeWhile q).takeWhile p = (l.takeWhile p).takeWhile q := by
  induction l with
  | nil => rfl
  | cons a t ih =>
    cases hp : p a <;> cases hq : q a <;>
      simp [List.takeWhile_cons, hp, hq, ih]

theorem length_flatMap_sum {α β : Type} (l : List α) (f : α → List β) :
    (l.flatMap f).length = (l.map fun a => (f a).length).sum := by
  induction l with
  | nil => rfl
  | cons a t ih => simp [List.flatMap_cons, ih]

/-- A nonempty violation filter is the same as a member failing validation. -/
theorem exists_violation_iff (l : List (String × String)) :
    (∃ pe ∈ l, validate_endpoint pe.2 = false) ↔
      (l.filter fun pe => !(validate_endpoint pe.2)) ≠ [] := by
  constructor
  · rintro ⟨pe, hmem, hval⟩ hnil
    have hin : pe ∈ l.filter fun pe => !(validate_endpoint pe.2) :=
      List.mem_filter.mpr ⟨hmem, by simp [hval]⟩
    rw [hnil] at hin
    exact absurd hin (List.not_mem_nil pe)
  · intro hne
    obtain ⟨pe, hmem⟩ := List.exists_mem_of_ne_nil _ hne
    have h2 := List.mem_filter.mp hmem
    exact ⟨pe, h2.1, by simpa using h2.2⟩

/- ### claim theorems on the reporter and driver -/

/-- C4 counterexample: the claim says every `--output-json` run, including
one whose resolved file list is empty, renders exactly the five keys.  The
`--changed-only --output-json` run with an empty change set instead prints
the two-key document `{success, message}`. -/
theorem json_keys_counterexample :
    outKeys (runMain ⟨true, true, false⟩ envEmpty).1 = [("success"), ("message")] ∧
    outKeys (runMain ⟨true, true, false⟩ envEmpty).1 ≠
      [("success"), ("files_checked"), ("total_endpoints"), ("violations"),
        ("allowed_paths")] := by
  exact ⟨by decide, by decide⟩

/-- C4 amended: every `--output-json` run that reaches the reporting stage
(that is, except a `--changed-only` run whose change set is empty, which
prints `{success, message}` and exits 0) renders exactly the keys `success`,
`files_checked`, `total_endpoints`, `violations`, `allowed_paths`. -/
theorem json_report_keys_amended :
    ∀ (args : Args) (env : Env), args.output_json = true →
      (args.changed_only = true → env.changedFiles ≠ []) →
      outKeys (runMain args env).1 =
        [("success"), ("files_checked"), ("total_endpoints"), ("violations"),
          ("allowed_paths")] := by
  intro args env hjson hne
  have hcond : (args.changed_only && env.changedFiles.isEmpty) = false := by
    cases hco : args.changed_only with
    | false => rfl
    | true =>
      cases hcf : env.changedFiles with
      | nil => exact absurd hcf (hne hco)
      | cons a l => simp
  rw [runMain.eq_def, hcond]
  simp [hjson, outKeys]

/-- C4 amended witness: the default-selection JSON run over an empty
environment renders the five report keys. -/
theorem json_report_keys_amended_witness :
    outKeys (runMain ⟨false, true, false⟩ envEmpty).1 =
      [("success"), ("files_checked"), ("total_endpoints"), ("violations"),
        ("allowed_paths")] :=
  json_report_keys_amended ⟨false, true, false⟩ envEmpty rfl (fun h => nomatch h)

/-- C5 counterexample: with an empty change set, the no-flag run renders the
full report while `--changed-only` prints the short no-files message, so the
two outputs are not identical for every environment. -/
theorem default_vs_changed_only_counterexample :
    (runMain ⟨false, false, false⟩ envEmpty).1 ≠
      (runMain ⟨true, false, false⟩ envEmpty).1 := by decide

/-- C5 amended: the no-flag run and the `--changed-only` run resolve the same
file list and always exit with the same status; their rendered outputs agree
whenever the change set is nonempty (when it is empty, `--changed-only`
prints the short no-files message instead of the full report). -/
theorem default_vs_changed_only_amended :
    ∀ (env : Env) (json : Bool),
      resolveFiles ⟨false, json, false⟩ env = resolveFiles ⟨true, json, false⟩ env ∧
      (runMain ⟨false, json, false⟩ env).2 = (runMain ⟨true, json, false⟩ env).2 ∧
      (env.changedFiles ≠ [] →
        runMain ⟨false, json, false⟩ env = runMain ⟨true, json, false⟩ env) := by
  intro env json
  refine ⟨rfl, ?_, ?_⟩
  · cases hcf : env.changedFiles with
    | nil => simp [runMain, hcf, resolveFiles, scanEndpoints, scanViolations]
    | cons a l => simp [runMain, hcf, resolveFiles]
  · intro hne
    cases hcf : env.changedFiles with
    | nil => exact absurd hcf hne
    | cons a l => simp [runMain, hcf, resolveFiles]

/-- C5 amended witness: on a one-file environment the no-flag run and the
`--changed-only` run agree completely. -/
theorem default_vs_changed_only_amended_witness :
    resolveFiles ⟨false, true, false⟩ envA = resolveFiles ⟨true, true, false⟩ envA ∧
    (runMain ⟨false, true, false⟩ envA).2 = (runMain ⟨true, true, false⟩ envA).2 ∧
    runMain ⟨false, true, false⟩ envA = runMain ⟨true, true, false⟩ envA := by
  have h := default_vs_changed_only_amended envA true
  exact ⟨h.1, h.2.1, h.2.2 (by decide)⟩

/-- C6: a run exits with status 1 iff some extracted endpoint fails
validation, with status 0 iff the violation list is empty, and a JSON run
reports `success` exactly when the violation list is empty. -/
theorem exit_code_iff_violations :
    ∀ (args : Args) (env : Env),
      ((runMain args env).2 = 1 ↔
        ∃ pe ∈ runAllEndpoints args env, validate_endpoint pe.2 = false) ∧
      ((runMain args env).2 = 0 ↔ runViolations args env = []) ∧
      (args.output_json = true →
        successFlag (runMain args env).1 = some ((runViolations args env).isEmpty)) := by
  intro args env
  by_cases h : (args.changed_only && env.changedFiles.isEmpty) = true
  · refine ⟨?_, ?_, ?_⟩
    · simp [runMain, runAllEndpoints, h]
    · simp [runMain, runAllEndpoints, runViolations, h]
    · intro hjson
      simp [runMain, runAllEndpoints, runViolations, h, hjson, successFlag]
  · have h' : (args.changed_only && env.changedFiles.isEmpty) = false := by
      cases hb : args.changed_only && env.changedFiles.isEmpty
      · rfl
      · exact absurd hb h
    have hall : runAllEndpoints args env =
        scanEndpoints env.contents (resolveFiles args env) := by
      simp [runAllEndpoints, h']
    have hvio : runViolations args env =
        scanViolations env.contents (resolveFiles args env) := by
      simp [runViolations, hall, scanViolations]
    refine ⟨?_, ?_, ?_⟩
    · rw [runMain.eq_def, h']
      simp only [Bool.false_eq_true, if_false]
      rw [hall, exists_violation_iff]
      have : (scanEndpoints env.contents (resolveFiles args env)).filter
          (fun pe => !(validate_endpoint pe.2)) =
          scanViolations env.contents (resolveFiles args env) := rfl
      rw [this]
      cases hv : scanViolations env.contents (resolveFiles args env) with
      | nil => simp [hv]
      | cons a l => simp [hv]
    · rw [runMain.eq_def, h', hvio]
      simp only [Bool.false_eq_true, if_false]
      cases hv : scanViolations env.contents (resolveFiles args env) with
      | nil => simp [hv]
      | cons a l => simp [hv]
    · intro hjson
      rw [runMain.eq_def, h', hvio]
      simp only [Bool.false_eq_true, if_false]
      cases hv : scanViolations env.contents (resolveFiles args env) with
      | nil => simp [hv, hjson, successFlag]
      | cons a l => simp [hv, hjson, successFlag]

/-- C6 witness: on scenario A with JSON output the exit status is 1, there
is a failing endpoint, and the reported success flag is false. -/
theorem exit_code_iff_violations_witness :
    ((runMain ⟨false, true, false⟩ envA).2 = 1 ↔
      ∃ pe ∈ runAllEndpoints ⟨false, true, false⟩ envA, validate_endpoint pe.2 = false) ∧
    successFlag (runMain ⟨false, true, false⟩ envA).1 =
      some ((runViolations ⟨false, true, false⟩ envA).isEmpty) := by
  have h := exit_code_iff_violations ⟨false, true, false⟩ envA
  exact ⟨h.1, h.2.2 rfl⟩

/-- C7: the recorded endpoint is the selected candidate truncated at the
first question mark and at the first hash; the two truncations commute, and
the raw match `/api/v1/users?x=1#frag` is recorded as `/api/v1/users`. -/
theorem endpoint_normalization_rule :
    (∀ s : String, cutHash (cutQuery s) = cutQuery (cutHash s)) ∧
    normalizeEndpoint ("/api/v1/users?x=1#frag") = ("/api/v1/users") ∧
    (∀ (ngroups : Nat) (m : List String) (e : String),
      process_match ngroups m = some e →
        e = normalizeEndpoint (selectCandidate ngroups m)) := by
  refine ⟨?_, by decide, ?_⟩
  · intro s
    cases s with
    | mk l =>
      unfold cutHash cutQuery
      exact congrArg String.mk (takeWhile_comm_bool _ _ _)
  · intro ngroups m e h
    unfold process_match at h
    by_cases hc : (selectCandidate ngroups m != ("") &&
        startsWithStr (selectCandidate ngroups m) ("/")) = true
    · rw [if_pos hc] at h
      exact (Option.some.inj h).symm
    · rw [if_neg hc] at h
      exact absurd h (by simp)

/-- C7 witness: the single-group match `/a?b#c` is recorded as the
normalization of its selected candidate. -/
theorem endpoint_normalization_rule_witness :
    ("/a") = normalizeEndpoint (selectCandidate 1 [("/a?b#c")]) :=
  endpoint_normalization_rule.2.2 1 [("/a?b#c")] ("/a") (by decide)

/-- C8: end-to-end scenario A: the Python file with the two route
declarations yields exactly two endpoints, the second is the sole violation,
and the JSON run reports success false, one violation, and exits 1. -/
theorem end_to_end_scenario_a :
    extract_endpoints_from_file envA.contents ("app.py") =
      [("/api/v1/users"), ("/api/v4/health/status")] ∧
    validate_endpoint ("/api/v1/users") = true ∧
    validate_endpoint ("/api/v4/health/status") = false ∧
    runMain ⟨false, true, false⟩ envA =
      (ProgOutput.jsonReport false 1 2
        [(("app.py"), ("/api/v4/health/status"))] ALLOWED_PARENT_PATHS, 1) := by
  exact ⟨by decide, by decide, by decide, by decide⟩

/-- C9: the extractor emits one record per surviving match, never
deduplicating: its output length is the sum over the rules of the number of
surviving matches, and a file declaring the same path twice (here through
two different rules) yields the same file/path record twice. -/
theorem extractor_preserves_duplicates :
    (∀ (contents : List (String × String)) (filepath content : String),
      contents.lookup filepath = some content →
      (extract_endpoints_from_file contents filepath).length =
        ((patternsFor filepath).map fun p =>
          ((findall p content).filterMap fun m =>
            process_match (seqGroups p) m).length).sum) ∧
    extract_endpoints_from_file [(("f.py"), contentDup)] ("f.py") = [("/p"), ("/p")] ∧
    scanEndpoints [(("f.py"), contentDup)] [("f.py")] =
      [(("f.py"), ("/p")), (("f.py"), ("/p"))] := by
  refine ⟨?_, by decide, by decide⟩
  intro contents filepath content h
  unfold extract_endpoints_from_file
  rw [h]
  exact length_flatMap_sum _ _

/-- C9 witness: the duplicate-declaration file instantiates the length
equation. -/
theorem extractor_preserves_duplicates_witness :
    (extract_endpoints_from_file [(("f.py"), contentDup)] ("f.py")).length =
      ((patternsFor ("f.py")).map fun p =>
        ((findall p contentDup).filterMap fun m =>
          process_match (seqGroups p) m).length).sum :=
  extractor_preserves_duplicates.1 [(("f.py"), contentDup)] ("f.py") contentDup
    (by decide)

/- ### lemmas on the matcher for claim C2 -/

theorem stripLitCI_cons_head (w0 : Char) (ws : List Char) (s r : List Char)
    (h : stripLitCI (w0 :: ws) s = some r) :
    ∃ c t, s = c :: t ∧ lowerEq w0 c = true := by
  cases s with
  | nil => exact absurd h (by simp [stripLitCI])
  | cons c t =>
    refine ⟨c, t, rfl, ?_⟩
    by_cases hl : lowerEq w0 c = true
    · exact hl
    · simp only [stripLitCI, if_neg hl] at h
      exact Option.noConfusion h

theorem matchElem_caps_length (e : RElem) (s : List Char)
    (caps : List String) (r : List Char)
    (h : (caps, r) ∈ matchElem e s) : caps.length = elemGroups e := by
  cases e with
  | lit w =>
    simp only [matchElem] at h
    split at h
    · simp only [List.mem_singleton, Prod.mk.injEq] at h
      rw [h.1]
      rfl
    · exact absurd h (List.not_mem_nil _)
  | cls cs =>
    simp only [matchElem] at h
    split at h
    · exact absurd h (List.not_mem_nil _)
    · split at h
      · simp only [List.mem_singleton, Prod.mk.injEq] at h
        rw [h.1]
        rfl
      · exact absurd h (List.not_mem_nil _)
  | ncls cs =>
    simp only [matchElem] at h
    split at h
    · exact absurd h (List.not_mem_nil _)
    · split at h
      · exact absurd h (List.not_mem_nil _)
      · simp only [List.mem_singleton, Prod.mk.injEq] at h
        rw [h.1]
        rfl
  | wsStar =>
    simp only [matchElem, List.mem_map] at h
    obtain ⟨r2, hr2, heq⟩ := h
    injection heq with h1 h2
    rw [← h1]
    rfl
  | wsPlus =>
    simp only [matchElem, List.mem_map] at h
    obtain ⟨r2, hr2, heq⟩ := h
    injection heq with h1 h2
    rw [← h1]
    rfl
  | dotStar =>
    simp only [matchElem, List.mem_map] at h
    obtain ⟨r2, hr2, heq⟩ := h
    injection heq with h1 h2
    rw [← h1]
    rfl
  | words ws =>
    simp only [matchElem, List.mem_filterMap] at h
    obtain ⟨w, hw, hmap⟩ := h
    cases hs : stripLitCI w.data s with
    | none => rw [hs] at hmap; exact absurd hmap (by simp)
    | some r2 =>
      rw [hs] at hmap
      injection hmap with hp
      injection hp with h1 h2
      rw [← h1]
      rfl
  | gwords ws =>
    simp only [matchElem, List.mem_filterMap] at h
    obtain ⟨w, hw, hmap⟩ := h
    cases hs : stripLitCI w.data s with
    | none => rw [hs] at hmap; exact absurd hmap (by simp)
    | some r2 =>
      rw [hs] at hmap
      injection hmap with hp
      injection hp with h1 h2
      rw [← h1]
      rfl
  | gncls cs =>
    simp only [matchElem, List.mem_map] at h
    obtain ⟨pr, hpr, heq⟩ := h
    injection heq with h1 h2
    rw [← h1]
    rfl

theorem toLower_slash_eq : Char.toLower '/' = '/' := by decide

/-- A capture of a good word alternation never begins with a slash: the
consumed text case-folds to the word, whose first character is not a
slash. -/
theorem matchElem_gwords_caps (ws : List String) (s : List Char)
    (caps : List String) (r : List Char)
    (hgood : goodMethodWords ws = true)
    (h : (caps, r) ∈ matchElem (.gwords ws) s) :
    ∃ g, caps = [g] ∧ startsWithStr g ("/") = false := by
  simp only [matchElem, List.mem_filterMap] at h
  obtain ⟨w, hw, hmap⟩ := h
  cases hs : stripLitCI w.data s with
  | none => rw [hs] at hmap; exact absurd hmap (by simp)
  | some r2 =>
    rw [hs] at hmap
    injection hmap with hp
    injection hp with h1 h2
    refine ⟨(⟨s.take w.data.length⟩ : String), h1.symm, ?_⟩
    have hw2 := (List.all_eq_true.mp (by exact hgood) w hw)
    rw [Bool.and_eq_true] at hw2
    obtain ⟨hne, hhead⟩ := hw2
    cases hwd : w.data with
    | nil => rw [hwd] at hne; exact absurd hne (by simp)
    | cons w0 wt =>
      rw [hwd] at hs
      obtain ⟨c, t, hst, hlow⟩ := stripLitCI_cons_head w0 wt s r2 hs
      rw [hst]
      have hc : c ≠ '/' := by
        intro hcs
        rw [lowerEq, hcs, toLower_slash_eq] at hlow
        rw [hwd] at hhead
        simp only [List.headD_cons] at hhead
        rw [beq_iff_eq] at hlow
        rw [hlow] at hhead
        simp at hhead
      show (("/") : String).data.isPrefixOf
        ((⟨(c :: t).take (w0 :: wt).length⟩ : String)).data = false
      have hlit : (("/") : String).data = ['/'] := rfl
      rw [hlit]
      simp only [List.length_cons, List.take_succ_cons, String.data]
      rw [List.isPrefixOf]
      simp [hc]
      intro hcontra
      exact absurd hcontra.symm hc

theorem firstCapMethod_cons_zero (e : RElem) (es : List RElem)
    (h : elemGroups e = 0) : firstCapMethod (e :: es) = firstCapMethod es := by
  cases e <;> first | rfl | simp [elemGroups] at h

theorem seqGroups_cons (e : RElem) (es : List RElem) :
    seqGroups (e :: es) = elemGroups e + seqGroups es := by
  simp [seqGroups]

/-- Captures of a whole regex: there are exactly `seqGroups` of them, and
when the first capturing element is a method alternation, the first capture
never begins with a slash. -/
theorem matchSeq_caps (es : List RElem) :
    ∀ (s : List Char) (caps : List String) (r : List Char),
      (caps, r) ∈ matchSeq es s →
      caps.length = seqGroups es ∧
      (firstCapMethod es = true →
        ∀ g, caps.head? = some g → startsWithStr g ("/") = false) := by
  induction es with
  | nil =>
    intro s caps r h
    simp only [matchSeq, List.mem_singleton, Prod.mk.injEq] at h
    rw [h.1]
    exact ⟨rfl, fun _ g hg => nomatch hg⟩
  | cons e es ih =>
    intro s caps r h
    simp only [matchSeq, List.mem_flatMap, List.mem_map] at h
    obtain ⟨cr, hcr, cr2, hcr2, heq⟩ := h
    injection heq with hcaps hrest
    have hlen1 : cr.1.length = elemGroups e :=
      matchElem_caps_length e s cr.1 cr.2 hcr
    obtain ⟨hlen2, hhead2⟩ := ih cr.2 cr2.1 cr2.2 hcr2
    constructor
    · rw [← hcaps, List.length_append, hlen1, hlen2, seqGroups_cons]
    · intro hfcm g hg
      cases e with
      | gwords ws =>
        obtain ⟨g0, hg0, hslash⟩ := matchElem_gwords_caps ws s cr.1 cr.2 hfcm hcr
        rw [← hcaps, hg0] at hg
        simp only [List.cons_append, List.head?_cons, Option.some.injEq] at hg
        rw [← hg]
        exact hslash
      | gncls cs => exact absurd hfcm (by simp [firstCapMethod])
      | lit w =>
        have hnil : cr.1 = [] := List.length_eq_zero.mp hlen1
        rw [← hcaps, hnil, List.nil_append] at hg
        exact hhead2 hfcm g hg
      | cls cs =>
        have hnil : cr.1 = [] := List.length_eq_zero.mp hlen1
        rw [← hcaps, hnil, List.nil_append] at hg
        exact hhead2 hfcm g hg
      | ncls cs =>
        have hnil : cr.1 = [] := List.length_eq_zero.mp hlen1
        rw [← hcaps, hnil, List.nil_append] at hg
        exact hhead2 hfcm g hg
      | wsStar =>
        have hnil : cr.1 = [] := List.length_eq_zero.mp hlen1
        rw [← hcaps, hnil, List.nil_append] at hg
        exact hhead2 hfcm g hg
      | wsPlus =>
        have hnil : cr.1 = [] := List.length_eq_zero.mp hlen1
        rw [← hcaps, hnil, List.nil_append] at hg
        exact hhead2 hfcm g hg
      | dotStar =>
        have hnil : cr.1 = [] := List.length_eq_zero.mp hlen1
        rw [← hcaps, hnil, List.nil_append] at hg
        exact hhead2 hfcm g hg
      | words ws =>
        have hnil : cr.1 = [] := List.length_eq_zero.mp hlen1
        rw [← hcaps, hnil, List.nil_append] at hg
        exact hhead2 hfcm g hg

theorem mem_of_head?_eq (l : List (List String × List Char))
    (cr : List String × List Char) (h : l.head? = some cr) : cr ∈ l := by
  cases l with
  | nil => exact absurd h (by simp)
  | cons a t =>
    simp only [List.head?_cons, Option.some.injEq] at h
    rw [← h]
    exact List.mem_cons_self a t

/-- Every group tuple reported by the findall scan is the capture list of an
actual match of the regex at some suffix of the input. -/
theorem mem_findallAux (p : List RElem) :
    ∀ (fuel : Nat) (s : List Char) (m : List String),
      m ∈ findallAux p fuel s → ∃ s2 r, (m, r) ∈ matchSeq p s2 := by
  intro fuel
  induction fuel with
  | zero => intro s m h; exact absurd h (List.not_mem_nil m)
  | succ fuel ih =>
    intro s m h
    simp only [findallAux] at h
    split at h
    · rename_i cr hh
      split at h
      · rcases List.mem_cons.mp h with h1 | h2
        · exact ⟨s, cr.2, h1 ▸ mem_of_head?_eq _ _ hh⟩
        · exact ih cr.2 m h2
      · rename_i hge
        split at h
        · simp only [List.mem_singleton] at h
          exact ⟨[], cr.2, h ▸ mem_of_head?_eq _ _ hh⟩
        · rename_i a t
          rcases List.mem_cons.mp h with h1 | h2
          · exact ⟨a :: t, cr.2, h1 ▸ mem_of_head?_eq _ _ hh⟩
          · exact ih t m h2
    · rename_i hh
      split at h
      · exact absurd h (List.not_mem_nil m)
      · rename_i a t
        exact ih t m h

theorem bne_empty_of_slash_head (g : String) (h : startsWithStr g ("/") = true) :
    (g != ("")) = true := by
  rcases List.isPrefixOf_iff_prefix.mp h with ⟨u, hu⟩
  rw [bne_iff_ne]
  intro he
  rw [he] at hu
  have hlit : ((("/") : String).data ++ u) = '/' :: u := rfl
  rw [hlit] at hu
  exact List.noConfusion hu

/-- Core of claim C2: for a two-group regex whose first capture is a method
alternation, the per-match processing emits exactly the normalized first
slash-initial group, and nothing when no group starts with a slash. -/
theorem findall_two_group_selection (es : List RElem)
    (h2 : seqGroups es = 2) (hfc : firstCapMethod es = true) :
    ∀ (content : String) (m : List String), m ∈ findall es content →
      process_match (seqGroups es) m = (firstSlashGroup m).map normalizeEndpoint := by
  intro content m hm
  obtain ⟨s2, r, hmem⟩ := mem_findallAux es _ _ _ hm
  obtain ⟨hlen, hhead⟩ := matchSeq_caps es s2 m r hmem
  rw [h2] at hlen
  obtain ⟨g0, g1, hm2⟩ := List.length_eq_two.mp hlen
  subst hm2
  have hg0 : startsWithStr g0 ("/") = false := hhead hfc g0 rfl
  rw [h2]
  cases hg1 : startsWithStr g1 ("/") with
  | true =>
    have hsel : selectCandidate 2 [g0, g1] = g1 := by
      unfold selectCandidate
      rw [if_pos (by norm_num)]
      simp [List.getD, hg1]
    unfold process_match
    rw [hsel, if_pos (by rw [bne_empty_of_slash_head g1 hg1, hg1]; rfl)]
    unfold firstSlashGroup
    simp [List.find?_cons, hg0, hg1]
  | false =>
    have hsel : selectCandidate 2 [g0, g1] = g0 := by
      unfold selectCandidate
      rw [if_pos (by norm_num)]
      simp [List.getD, hg1]
    unfold process_match
    rw [hsel, if_neg (by rw [hg0, Bool.and_false]; exact Bool.false_ne_true)]
    unfold firstSlashGroup
    simp [List.find?_cons, hg0, hg1]

/-- Every multi-group rule of the pattern table has exactly two groups and a
method alternation as its first capturing element. -/
theorem table_two_group_shape :
    ∀ pr ∈ ENDPOINT_PATTERNS, ∀ p ∈ pr.2, 2 ≤ seqGroups p →
      seqGroups p = 2 ∧ firstCapMethod p = true := by decide

/-- C2: for every rule of the pattern table whose regex has at least two
capture groups, and every match it produces on any content, the emitted
candidate is the first group (in group order) whose text starts with a
slash, normalized; when no group starts with a slash the match contributes
no record. -/
theorem extractor_multi_group_selection :
    ∀ (lang : String) (plist : List (List RElem)),
      (lang, plist) ∈ ENDPOINT_PATTERNS → ∀ p ∈ plist, 2 ≤ seqGroups p →
      ∀ (content : String) (m : List String), m ∈ findall p content →
      process_match (seqGroups p) m = (firstSlashGroup m).map normalizeEndpoint := by
  intro lang plist hrow p hp h2 content m hm
  obtain ⟨hs2, hfc⟩ := table_two_group_shape (lang, plist) hrow p hp h2
  exact findall_two_group_selection p hs2 hfc content m hm

/-- C2 witness: the FastAPI rule on the duplicate-declaration content
produces the match with groups `get` and `/p`, and the processing emits the
first slash group. -/
theorem extractor_multi_group_selection_witness :
    process_match (seqGroups (pyPatterns.getD 1 [])) [("get"), ("/p")] =
      (firstSlashGroup [("get"), ("/p")]).map normalizeEndpoint :=
  extractor_multi_group_selection ("py") pyPatterns (by decide)
    (pyPatterns.getD 1 []) (by decide) (by decide) contentDup [("get"), ("/p")]
    (by decide)
